import Mathlib

/-!
Verification development for the dsp-chain node core (src/node.rs).

The code is embedded shallowly:

* samples (Rust f32 values in the default `Sample = f32`, `Buffer = Vec<f32>`
  instantiation) are embedded as exact rationals;
* buffers are lists of rationals; the DspBuffer operations used by the code
  are indexed read (panicking out of bounds, embedded as List.get? returning
  none), indexed write (List.set) and zeroed construction (List.replicate);
* fallible operations (out-of-bounds reads of buffers or of the two-element
  gain array, and the numeric-conversion unwraps) are embedded in the Option
  monad, none standing for a panic;
* an input of a node is represented by its audio_requested behaviour, a
  function from (buffer, settings) to an optional result buffer, matching the
  dynamic dispatch through the trait-object references returned by inputs().
-/

/-- Modelled from the spec: Settings is supplied by the external stream
collaborator (the sound_stream crate, not part of this repository); the node
algorithm reads only its frame count and channel count. -/
structure Settings where
  frames : ℕ
  channels : ℕ
deriving DecidableEq

/-- Embeds Node::vol_per_channel (src/node.rs lines 48-54): the per-channel
gain pair derived from volume and pan, as the two-element list
[left, right]. -/
def vol_per_channel (vol pan : ℚ) : List ℚ :=
  if 0 ≤ pan then
    [vol * |pan - 1|, vol]
  else
    [vol, vol * (pan + 1)]

/-- Embeds the to_f32().unwrap() conversion; for the default f32 sample type
the conversion is the identity and always succeeds. -/
def sample_to_f32 (x : ℚ) : Option ℚ := some x

/-- Embeds the from_f32(..).unwrap() conversion; for the default f32 sample
type the conversion is the identity and always succeeds. -/
def sample_from_f32 (x : ℚ) : Option ℚ := some x

/-- Embeds the body of the inner mixing loop of Node::audio_requested
(src/node.rs lines 73-77) at frame i and channel j: read the scratch sample at
idx = i*channels + j, convert, read the gain at j, convert the product, and
add it into the output sample at idx. Any out-of-bounds access is none. -/
def mixStep (channels : ℕ) (gain working : List ℚ) (i j : ℕ)
    (output : List ℚ) : Option (List ℚ) :=
  match working[i * channels + j]? with
  | none => none
  | some w =>
    match sample_to_f32 w with
    | none => none
    | some wf =>
      match gain[j]? with
      | none => none
      | some g =>
        match sample_from_f32 (wf * g) with
        | none => none
        | some ws =>
          match output[i * channels + j]? with
          | none => none
          | some o => some (output.set (i * channels + j) (o + ws))

/-- Embeds the inner for-loop over channels j in range(0, channels)
(src/node.rs line 72). -/
def mixRow (channels : ℕ) (gain working : List ℚ) (i : ℕ)
    (output : List ℚ) : Option (List ℚ) :=
  (List.range channels).foldlM (fun out j => mixStep channels gain working i j out) output

/-- Embeds the outer for-loop over frames i in range(0, frames)
(src/node.rs line 71): mixes one pulled scratch buffer into the output. -/
def mixOne (frames channels : ℕ) (gain working : List ℚ)
    (output : List ℚ) : Option (List ℚ) :=
  (List.range frames).foldlM (fun out i => mixRow channels gain working i out) output

/-- An input as seen by the default audio_requested: the audio_requested
behaviour of the trait object, taking the buffer to fill and the settings. -/
abbrev Pull := List ℚ → Settings → Option (List ℚ)

/-- Embeds the for-loop over self.inputs() (src/node.rs lines 66-80): for each
input in enumeration order, allocate a fresh zeroed scratch buffer of
frames*channels samples, pull the input into it, and mix it into output. -/
def mixInputs : List Pull → List ℚ → List ℚ → Settings → Option (List ℚ)
  | [], _, output, _ => some output
  | pull :: rest, gain, output, s =>
    match pull (List.replicate (s.frames * s.channels) 0) s with
    | none => none
    | some working =>
      match mixOne s.frames s.channels gain working output with
      | none => none
      | some out2 => mixInputs rest gain out2 s

/-- Embeds the default Node::audio_requested (src/node.rs lines 61-83) of a
node with volume vol, panning pan, inputs() returning the given pulls in
order, and the given process_buffer: compute the gain once, mix every input
into output, then apply process_buffer exactly once. -/
def audio_requested (vol pan : ℚ) (inputs : List Pull)
    (process_buffer : List ℚ → Settings → List ℚ)
    (output : List ℚ) (s : Settings) : Option (List ℚ) :=
  match mixInputs inputs (vol_per_channel vol pan) output s with
  | none => none
  | some mixed => some (process_buffer mixed s)

/-- The default Node::process_buffer (src/node.rs line 89): a no-op. -/
def default_process_buffer (output : List ℚ) (_s : Settings) : List ℚ := output

/-- A tree of nodes that all use the default audio_requested: each node has a
volume, a panning, its list of input nodes, and a process_buffer. -/
inductive NodeT where
  | mk (vol pan : ℚ) (inputs : List NodeT) (process_buffer : List ℚ → Settings → List ℚ)

/-- One pass of the input loop of the default audio_requested over a list of
child nodes, parameterised by the interpretation of a child's audio_requested.
The outer Option layer is fuel exhaustion of that interpretation (none = the
recursion was cut off), the inner layer is the panic behaviour. -/
def mixChildren (pull : NodeT → List ℚ → Settings → Option (Option (List ℚ))) :
    List NodeT → List ℚ → List ℚ → Settings → Option (Option (List ℚ))
  | [], _, output, _ => some (some output)
  | n :: rest, gain, output, s =>
    match pull n (List.replicate (s.frames * s.channels) 0) s with
    | none => none
    | some none => some none
    | some (some working) =>
      match mixOne s.frames s.channels gain working output with
      | none => some none
      | some out2 => mixChildren pull rest gain out2 s

/-- Fuel-indexed interpretation of the recursive default audio_requested over
a node tree: with fuel 0 the recursion is cut off (outer none); otherwise one
invocation mixes the children (recursively interpreted with one unit of fuel
fewer) and applies the node's process_buffer, exactly as audio_requested
does. -/
def pullFuel : ℕ → NodeT → List ℚ → Settings → Option (Option (List ℚ))
  | 0, _, _, _ => none
  | fuel + 1, NodeT.mk vol pan inputs proc, output, s =>
    match mixChildren (pullFuel fuel) inputs (vol_per_channel vol pan) output s with
    | none => none
    | some none => some none
    | some (some mixed) => some (some (proc mixed s))

/-- Follows the spec's words for step 3c of the audio_requested algorithm:
for every frame index i in [0, frames) and channel index j in [0, channels),
with idx = i*channels + j, accumulate output[idx] += scratch[idx] * gain[j].
Stated pointwise over all interleaved indices idx < frames*channels, for which
i = idx / channels and j = idx % channels; a read outside scratch, outside the
gain array, or outside output is undefined (none). -/
def spec_accumulate (frames channels : ℕ) (gain working output : List ℚ) :
    Option (List ℚ) :=
  (List.range (frames * channels)).mapM (fun idx =>
    match working[idx]?, gain[idx % channels]?, output[idx]? with
    | some w, some g, some o => some (o + w * g)
    | _, _, _ => none)

/-- Follows the spec's words for step 3 of the audio_requested algorithm: for
each input in enumeration order, allocate a fresh zero-filled scratch buffer
of frames*channels samples, recursively pull the input into it with the same
settings, and accumulate it into output as spec_accumulate states. -/
def spec_mixInputs : List Pull → List ℚ → List ℚ → Settings → Option (List ℚ)
  | [], _, output, _ => some output
  | pull :: rest, gain, output, s =>
    match pull (List.replicate (s.frames * s.channels) 0) s with
    | none => none
    | some working =>
      match spec_accumulate s.frames s.channels gain working output with
      | none => none
      | some out2 => spec_mixInputs rest gain out2 s

/-- Follows the spec's words for the whole audio_requested algorithm: compute
gain = gain_per_channel() once before any input is processed, mix every input
into output in enumeration order, then invoke process_buffer exactly once. -/
def spec_audio_requested (vol pan : ℚ) (inputs : List Pull)
    (process_buffer : List ℚ → Settings → List ℚ)
    (output : List ℚ) (s : Settings) : Option (List ℚ) :=
  match spec_mixInputs inputs (vol_per_channel vol pan) output s with
  | none => none
  | some mixed => some (process_buffer mixed s)

/-- One pure accumulation update of the mixing loop at the pair p = (i, j):
set output[idx] to output[idx] + working[idx] * gain[j] with
idx = i*channels + j, reading out-of-range entries as 0 (used only where the
reads are known to be in bounds). -/
def applyPair (channels : ℕ) (gain working : List ℚ) (output : List ℚ)
    (p : ℕ × ℕ) : List ℚ :=
  output.set (p.1 * channels + p.2)
    (output.getD (p.1 * channels + p.2) 0 +
      working.getD (p.1 * channels + p.2) 0 * gain.getD p.2 0)

/-- The pure accumulation updates of a list of (frame, channel) pairs applied
in order. -/
def applyPairs (channels : ℕ) (gain working : List ℚ) (ps : List (ℕ × ℕ))
    (output : List ℚ) : List ℚ :=
  ps.foldl (applyPair channels gain working) output

/-- All reads of the mixing-loop body at the pair p = (i, j) are in bounds,
for scratch length wlen, gain length glen and output length olen. -/
def pairOK (channels wlen glen olen : ℕ) (p : ℕ × ℕ) : Prop :=
  p.1 * channels + p.2 < wlen ∧ p.2 < glen ∧ p.1 * channels + p.2 < olen

instance (channels wlen glen olen : ℕ) (p : ℕ × ℕ) :
    Decidable (pairOK channels wlen glen olen p) := by
  unfold pairOK
  infer_instance

/-- The (frame, channel) pairs visited by the inner loop at frame i, in
order. -/
def rowPairs (i channels : ℕ) : List (ℕ × ℕ) :=
  (List.range channels).map (fun j => (i, j))

/-- The (frame, channel) pairs visited by the two nested mixing loops, in
order. -/
def allPairs (frames channels : ℕ) : List (ℕ × ℕ) :=
  (List.range frames).flatMap (fun i => rowPairs i channels)

/-- The gain array always has exactly two entries (left, right). -/
theorem length_vol_per_channel (vol pan : ℚ) : (vol_per_channel vol pan).length = 2 := by
  unfold vol_per_channel
  split <;> rfl

/-- C2: for every volume v and pan p (no clamping, p outside [-1, 1]
included), vol_per_channel returns [v * |p - 1|, v] when p >= 0 and
[v, v * (p + 1)] when p < 0; for example p = -2 yields the gain -1, outside
[0, 1]. -/
theorem vol_per_channel_formula :
    (∀ v p : ℚ, vol_per_channel v p =
      if 0 ≤ p then [v * |p - 1|, v] else [v, v * (p + 1)]) ∧
    vol_per_channel 1 (-2) = [1, -1] := by
  constructor
  · intro v p
    rfl
  · norm_num [vol_per_channel]

/-- C5: a node with no inputs leaves output untouched by the mixing step:
audio_requested hands the initial buffer to process_buffer unchanged, and
with the default no-op process_buffer the result is exactly the initial
buffer. -/
theorem audio_requested_no_inputs (vol pan : ℚ)
    (proc : List ℚ → Settings → List ℚ) (output : List ℚ) (s : Settings) :
    audio_requested vol pan [] proc output s = some (proc output s) ∧
    audio_requested vol pan [] default_process_buffer output s = some output := by
  constructor <;> rfl

/-- C8: the four concrete gain pairs of the spec: center pan at unit volume
gives [1, 1], hard right gives [0, 1], hard left gives [1, 0], and pan 0.5 at
volume 2 gives [1, 2]. -/
theorem vol_per_channel_examples :
    vol_per_channel 1 0 = [1, 1] ∧
    vol_per_channel 1 1 = [0, 1] ∧
    vol_per_channel 1 (-1) = [1, 0] ∧
    vol_per_channel 2 (1/2) = [1, 2] := by
  refine ⟨?_, ?_, ?_, ?_⟩ <;> norm_num [vol_per_channel, abs_of_nonneg, abs_of_nonpos]

/-- A successful indexed read is in bounds. -/
theorem getElem?_some_lt {α : Type _} {l : List α} {n : ℕ} {a : α}
    (h : l[n]? = some a) : n < l.length := by
  by_contra hn
  rw [List.getElem?_eq_none (Nat.le_of_not_lt hn)] at h
  exact Option.noConfusion h

/-- A pure accumulation update does not change the buffer length. -/
theorem applyPair_length (channels : ℕ) (gain working output : List ℚ)
    (p : ℕ × ℕ) : (applyPair channels gain working output p).length = output.length := by
  unfold applyPair
  simp

/-- Pure accumulation updates do not change the buffer length. -/
theorem applyPairs_length (channels : ℕ) (gain working : List ℚ)
    (ps : List (ℕ × ℕ)) :
    ∀ output : List ℚ, (applyPairs channels gain working ps output).length = output.length := by
  induction ps with
  | nil => intro output; rfl
  | cons p ps ih =>
    intro output
    unfold applyPairs
    rw [List.foldl_cons]
    have := ih (applyPair channels gain working output p)
    unfold applyPairs at this
    rw [this, applyPair_length]

/-- One mixing-loop body step succeeds exactly when its three reads are in
bounds, in which case it performs the pure accumulation update. -/
theorem mixStep_eq (channels : ℕ) (gain working : List ℚ) (i j : ℕ)
    (output : List ℚ) :
    mixStep channels gain working i j output =
    if pairOK channels working.length gain.length output.length (i, j)
    then some (applyPair channels gain working output (i, j)) else none := by
  have hpair : pairOK channels working.length gain.length output.length (i, j) ↔
      (i * channels + j < working.length ∧ j < gain.length ∧
        i * channels + j < output.length) := Iff.rfl
  unfold mixStep sample_to_f32 sample_from_f32
  cases hw : working[i * channels + j]? with
  | none =>
    rw [List.getElem?_eq_none_iff] at hw
    rw [if_neg (fun hok => absurd (hpair.mp hok).1 (by omega))]
  | some w =>
    have hwlt : i * channels + j < working.length := getElem?_some_lt hw
    cases hg : gain[j]? with
    | none =>
      rw [List.getElem?_eq_none_iff] at hg
      rw [if_neg (fun hok => absurd (hpair.mp hok).2.1 (by omega))]
    | some g =>
      have hglt : j < gain.length := getElem?_some_lt hg
      cases ho : output[i * channels + j]? with
      | none =>
        rw [List.getElem?_eq_none_iff] at ho
        rw [if_neg (fun hok => absurd (hpair.mp hok).2.2 (by omega))]
      | some o =>
        have holt : i * channels + j < output.length := getElem?_some_lt ho
        rw [if_pos (hpair.mpr ⟨hwlt, hglt, holt⟩)]
        unfold applyPair
        simp only [List.getD_eq_getElem?_getD, hw, hg, ho, Option.getD_some]

/-- The mixing-loop body iterated over any list of (frame, channel) pairs
succeeds exactly when every visited read is in bounds, in which case it equals
the pure accumulation updates applied in order. -/
theorem foldlM_mixStep_char (channels : ℕ) (gain working : List ℚ)
    (ps : List (ℕ × ℕ)) :
    ∀ output : List ℚ,
    List.foldlM (fun out p => mixStep channels gain working p.1 p.2 out) output ps =
    if ∀ p ∈ ps, pairOK channels working.length gain.length output.length p
    then some (applyPairs channels gain working ps output) else none := by
  induction ps with
  | nil =>
    intro output
    simp [applyPairs]
  | cons p ps ih =>
    intro output
    simp only [List.foldlM_cons]
    rw [mixStep_eq]
    by_cases hp : pairOK channels working.length gain.length output.length p
    · rw [if_pos hp]
      show List.foldlM (fun out q => mixStep channels gain working q.1 q.2 out)
        (applyPair channels gain working output p) ps = _
      rw [ih, applyPair_length]
      by_cases hps : ∀ q ∈ ps, pairOK channels working.length gain.length output.length q
      · rw [if_pos hps, if_pos (List.forall_mem_cons.mpr ⟨hp, hps⟩)]
        rfl
      · rw [if_neg hps,
          if_neg (fun hall => hps (fun q hq => hall q (List.mem_cons_of_mem p hq)))]
    · rw [if_neg hp, if_neg (fun hall => hp (hall p (List.mem_cons_self p ps)))]
      rfl

/-- The inner channel loop visits exactly the pairs of its row, in order. -/
theorem mixRow_eq_pairs (channels : ℕ) (gain working : List ℚ) (i : ℕ)
    (output : List ℚ) :
    mixRow channels gain working i output =
    List.foldlM (fun out p => mixStep channels gain working p.1 p.2 out) output
      (rowPairs i channels) := by
  unfold mixRow rowPairs
  rw [List.foldlM_map]

/-- The two nested mixing loops visit exactly the pairs of allPairs, in
order. -/
theorem mixOne_eq_pairs (frames channels : ℕ) (gain working : List ℚ) :
    ∀ output : List ℚ,
    mixOne frames channels gain working output =
    List.foldlM (fun out p => mixStep channels gain working p.1 p.2 out) output
      (allPairs frames channels) := by
  induction frames with
  | zero => intro output; rfl
  | succ f ih =>
    intro output
    have h1 : mixOne (f + 1) channels gain working output =
        (mixOne f channels gain working output).bind
          (fun out => mixRow channels gain working f out) := by
      unfold mixOne
      rw [List.range_succ, List.foldlM_append]
      cases List.foldlM (fun out i => mixRow channels gain working i out) output
        (List.range f) with
      | none => rfl
      | some b => simp
    have h2 : List.foldlM (fun out p => mixStep channels gain working p.1 p.2 out) output
          (allPairs (f + 1) channels) =
        (List.foldlM (fun out p => mixStep channels gain working p.1 p.2 out) output
          (allPairs f channels)).bind
          (fun out => List.foldlM (fun out p => mixStep channels gain working p.1 p.2 out) out
            (rowPairs f channels)) := by
      unfold allPairs
      rw [List.range_succ, List.flatMap_append, List.foldlM_append]
      simp only [List.flatMap_cons, List.flatMap_nil, List.append_nil]
      cases List.foldlM (fun out p => mixStep channels gain working p.1 p.2 out) output
        ((List.range f).flatMap fun i => rowPairs i channels) with
      | none => rfl
      | some b => rfl
    rw [h1, h2, ih]
    cases List.foldlM (fun out p => mixStep channels gain working p.1 p.2 out) output
      (allPairs f channels) with
    | none => rfl
    | some b =>
      simpa using mixRow_eq_pairs channels gain working f b

/-- Characterisation of one scratch-buffer mix: it succeeds exactly when every
read of the two nested loops is in bounds, in which case it performs all pure
accumulation updates in order. -/
theorem mixOne_char (frames channels : ℕ) (gain working output : List ℚ) :
    mixOne frames channels gain working output =
    if ∀ p ∈ allPairs frames channels,
        pairOK channels working.length gain.length output.length p
    then some (applyPairs channels gain working (allPairs frames channels) output)
    else none := by
  rw [mixOne_eq_pairs, foldlM_mixStep_char]

/-- Membership in the visited pair list: exactly the pairs with frame index
below frames and channel index below channels. -/
theorem mem_allPairs {f c : ℕ} {p : ℕ × ℕ} :
    p ∈ allPairs f c ↔ p.1 < f ∧ p.2 < c := by
  obtain ⟨a, b⟩ := p
  unfold allPairs rowPairs
  simp only [List.mem_flatMap, List.mem_map, List.mem_range, Prod.mk.injEq]
  constructor
  · rintro ⟨i, hi, j, hj, h1, h2⟩
    subst h1
    subst h2
    exact ⟨hi, hj⟩
  · rintro ⟨ha, hb⟩
    exact ⟨a, ha, b, hb, rfl, rfl⟩

/-- Pointwise effect of the accumulation updates of one row over channel
indices below m: entries in the row's index window gain
working[k] * gain[k - i*channels]; all others are untouched. -/
theorem applyPairs_row_getElem? (channels : ℕ) (gain working : List ℚ) (i : ℕ) :
    ∀ (m : ℕ) (output : List ℚ) (k : ℕ),
    (applyPairs channels gain working ((List.range m).map (fun j => (i, j))) output)[k]? =
    if i * channels ≤ k ∧ k < i * channels + m then
      (output[k]?).map (fun o => o + working.getD k 0 * gain.getD (k - i * channels) 0)
    else output[k]? := by
  intro m
  induction m with
  | zero =>
    intro output k
    rw [if_neg (by omega)]
    rfl
  | succ m ih =>
    intro output k
    rw [List.range_succ, List.map_append]
    unfold applyPairs
    rw [List.foldl_append]
    show (applyPair channels gain working
        (applyPairs channels gain working ((List.range m).map (fun j => (i, j))) output)
        (i, m))[k]? = _
    unfold applyPair
    dsimp only
    rw [List.getElem?_set']
    by_cases hk : i * channels + m = k
    · rw [if_pos hk, if_pos (by omega)]
      have hsub : k - i * channels = m := by omega
      rw [hsub, ← hk]
      simp only [List.getD_eq_getElem?_getD]
      rw [ih, if_neg (by omega)]
      cases hout : output[i * channels + m]? with
      | none => rfl
      | some o =>
        simp only [Option.map_eq_map, Option.map_some', Function.const_apply,
          Option.getD_some]
    · rw [if_neg hk, ih]
      by_cases hin : i * channels ≤ k ∧ k < i * channels + m
      · rw [if_pos hin, if_pos (by omega)]
      · rw [if_neg hin, if_neg (fun hc => hin ⟨hc.1, by omega⟩)]

/-- Pointwise effect of all accumulation updates of the two nested loops:
entry k < frames*channels gains working[k] * gain[k % channels]; entries
beyond the interleaved range are untouched. -/
theorem applyPairs_all_getElem? (channels : ℕ) (gain working : List ℚ) :
    ∀ (frames : ℕ) (output : List ℚ) (k : ℕ),
    (applyPairs channels gain working (allPairs frames channels) output)[k]? =
    if k < frames * channels then
      (output[k]?).map (fun o => o + working.getD k 0 * gain.getD (k % channels) 0)
    else output[k]? := by
  intro frames
  induction frames with
  | zero =>
    intro output k
    rw [if_neg (by omega)]
    rfl
  | succ f ih =>
    intro output k
    have hsplit : allPairs (f + 1) channels =
        allPairs f channels ++ (List.range channels).map (fun j => (f, j)) := by
      unfold allPairs rowPairs
      rw [List.range_succ, List.flatMap_append]
      simp
    have hmul : (f + 1) * channels = f * channels + channels := by ring
    rw [hsplit, hmul]
    unfold applyPairs
    rw [List.foldl_append]
    show (applyPairs channels gain working ((List.range channels).map (fun j => (f, j)))
        (applyPairs channels gain working (allPairs f channels) output))[k]? = _
    rw [applyPairs_row_getElem?, ih]
    by_cases h1 : k < f * channels
    · rw [if_neg (by omega), if_pos h1, if_pos (by omega)]
    · by_cases h2 : k < f * channels + channels
      · rw [if_pos (by omega), if_neg h1, if_pos (by omega)]
        have hmod : k % channels = k - f * channels := by
          have hcomm : channels * f = f * channels := Nat.mul_comm channels f
          have hk : k = channels * f + (k - f * channels) := by omega
          conv_lhs => rw [hk]
          rw [Nat.mul_add_mod]
          exact Nat.mod_eq_of_lt (by omega)
        rw [hmod]
      · rw [if_neg (by omega), if_neg h1, if_neg (by omega)]

/-- A mapM in the Option monad of a pointwise-successful function is the
plain map of its values. -/
theorem mapM_eq_some_map {α β : Type _} (f : α → Option β) (g : α → β) :
    ∀ l : List α, (∀ a ∈ l, f a = some (g a)) → l.mapM f = some (l.map g) := by
  intro l
  induction l with
  | nil => intro _; rfl
  | cons a l ih =>
    intro h
    rw [List.mapM_cons, h a (List.mem_cons_self a l),
      ih (fun b hb => h b (List.mem_cons_of_mem a hb))]
    rfl

/-- A mapM in the Option monad fails as soon as the function fails on any
element. -/
theorem mapM_eq_none {α β : Type _} (f : α → Option β) :
    ∀ (l : List α) (a : α), a ∈ l → f a = none → l.mapM f = none := by
  intro l
  induction l with
  | nil => intro a ha; exact absurd ha (List.not_mem_nil a)
  | cons b l ih =>
    intro a ha hf
    rw [List.mapM_cons]
    rcases List.mem_cons.mp ha with h | h
    · subst h
      rw [hf]
      rfl
    · cases hfb : f b with
      | none => rfl
      | some v =>
        rw [ih a h hf]
        rfl

/-- The in-bounds conditions over the visited pair list are the in-bounds
conditions over the flat interleaved index range. -/
theorem allPairs_cond_iff (frames channels wlen glen olen : ℕ) :
    (∀ p ∈ allPairs frames channels, pairOK channels wlen glen olen p) ↔
    (∀ idx < frames * channels, idx < wlen ∧ idx % channels < glen ∧ idx < olen) := by
  constructor
  · intro h idx hidx
    have hc : 0 < channels := by
      by_contra hc
      have hzero : channels = 0 := by omega
      subst hzero
      simp at hidx
    have hi : idx / channels < frames := (Nat.div_lt_iff_lt_mul hc).mpr hidx
    have hj : idx % channels < channels := Nat.mod_lt _ hc
    have hmem := h (idx / channels, idx % channels) (mem_allPairs.mpr ⟨hi, hj⟩)
    have hidx' : idx / channels * channels + idx % channels = idx := by
      rw [Nat.mul_comm]
      exact Nat.div_add_mod idx channels
    have h1 : idx / channels * channels + idx % channels < wlen := hmem.1
    have h2 : idx % channels < glen := hmem.2.1
    have h3 : idx / channels * channels + idx % channels < olen := hmem.2.2
    rw [hidx'] at h1 h3
    exact ⟨h1, h2, h3⟩
  · intro h p hp
    obtain ⟨a, b⟩ := p
    obtain ⟨ha, hb⟩ := mem_allPairs.mp hp
    have hidx : a * channels + b < frames * channels := by
      have he : (a + 1) * channels = a * channels + channels := by ring
      have h2 : (a + 1) * channels ≤ frames * channels :=
        Nat.mul_le_mul_right channels (by omega)
      omega
    have hmod : (a * channels + b) % channels = b := by
      rw [Nat.mul_comm, Nat.mul_add_mod]
      exact Nat.mod_eq_of_lt hb
    obtain ⟨h1, h2, h3⟩ := h (a * channels + b) hidx
    rw [hmod] at h2
    exact ⟨h1, h2, h3⟩

/-- Characterisation of the spec accumulation step: it succeeds exactly when
every read is in bounds, in which case entry idx of the result is
output[idx] + working[idx] * gain[idx % channels]. -/
theorem spec_accumulate_char (frames channels : ℕ) (gain working output : List ℚ) :
    spec_accumulate frames channels gain working output =
    if ∀ p ∈ allPairs frames channels,
        pairOK channels working.length gain.length output.length p
    then some ((List.range (frames * channels)).map (fun idx =>
      output.getD idx 0 + working.getD idx 0 * gain.getD (idx % channels) 0))
    else none := by
  unfold spec_accumulate
  by_cases h : ∀ p ∈ allPairs frames channels,
      pairOK channels working.length gain.length output.length p
  · rw [if_pos h]
    apply mapM_eq_some_map
    intro idx hidx
    rw [List.mem_range] at hidx
    obtain ⟨h1, h2, h3⟩ :=
      (allPairs_cond_iff frames channels working.length gain.length output.length).mp
        h idx hidx
    rw [List.getElem?_eq_getElem h1, List.getElem?_eq_getElem h2,
      List.getElem?_eq_getElem h3]
    simp only [List.getD_eq_getElem?_getD, List.getElem?_eq_getElem h1,
      List.getElem?_eq_getElem h2, List.getElem?_eq_getElem h3, Option.getD_some]
  · rw [if_neg h]
    have h' : ¬ ∀ idx < frames * channels,
        idx < working.length ∧ idx % channels < gain.length ∧ idx < output.length :=
      fun hc => h
        ((allPairs_cond_iff frames channels working.length gain.length output.length).mpr hc)
    rcases not_forall.mp h' with ⟨idx, hidx⟩
    rcases Classical.not_imp.mp hidx with ⟨hlt, hfail⟩
    apply mapM_eq_none _ _ idx (List.mem_range.mpr hlt)
    cases hw : working[idx]? with
    | none => rfl
    | some w =>
      cases hg : gain[idx % channels]? with
      | none => rfl
      | some g =>
        cases ho : output[idx]? with
        | none => rfl
        | some o =>
          exact absurd ⟨getElem?_some_lt hw, getElem?_some_lt hg, getElem?_some_lt ho⟩ hfail

/-- On a buffer of length frames*channels, one scratch-buffer mix of the code
is exactly the spec accumulation step. -/
theorem mixOne_eq_spec_accumulate (frames channels : ℕ) (gain working output : List ℚ)
    (h : output.length = frames * channels) :
    mixOne frames channels gain working output =
    spec_accumulate frames channels gain working output := by
  rw [mixOne_char, spec_accumulate_char]
  by_cases hc : ∀ p ∈ allPairs frames channels,
      pairOK channels working.length gain.length output.length p
  · rw [if_pos hc, if_pos hc]
    congr 1
    apply List.ext_getElem?
    intro k
    rw [applyPairs_all_getElem?]
    by_cases hk : k < frames * channels
    · rw [if_pos hk]
      have hko : k < output.length := by omega
      have ho : output[k]? = some (output.getD k 0) := by
        simp [List.getD_eq_getElem?_getD, List.getElem?_eq_getElem hko]
      rw [ho, List.getElem?_map, List.getElem?_range hk]
      rfl
    · rw [if_neg hk]
      have h1 : output[k]? = none := List.getElem?_eq_none (by omega)
      have h2 : ((List.range (frames * channels)).map (fun idx =>
          output.getD idx 0 + working.getD idx 0 * gain.getD (idx % channels) 0))[k]? =
          none :=
        List.getElem?_eq_none (by simpa using Nat.le_of_not_lt hk)
      rw [h1, h2]
  · rw [if_neg hc, if_neg hc]

/-- On a buffer of length frames*channels, the input-mixing loop of the code
agrees with the spec formulation, input by input. -/
theorem mixInputs_eq_spec (s : Settings) (gain : List ℚ) :
    ∀ (inputs : List Pull) (output : List ℚ),
    output.length = s.frames * s.channels →
    mixInputs inputs gain output s = spec_mixInputs inputs gain output s := by
  intro inputs
  induction inputs with
  | nil => intro output _; rfl
  | cons pull rest ih =>
    intro output h
    unfold mixInputs spec_mixInputs
    cases hp : pull (List.replicate (s.frames * s.channels) 0) s with
    | none => rfl
    | some working =>
      dsimp only
      rw [mixOne_eq_spec_accumulate s.frames s.channels gain working output h]
      cases hacc : spec_accumulate s.frames s.channels gain working output with
      | none => rfl
      | some out2 =>
        apply ih
        have hchar := spec_accumulate_char s.frames s.channels gain working output
        rw [hacc] at hchar
        by_cases hcnd : ∀ p ∈ allPairs s.frames s.channels,
            pairOK s.channels working.length gain.length output.length p
        · rw [if_pos hcnd] at hchar
          have h2 := Option.some.inj hchar
          rw [h2, List.length_map, List.length_range]
        · rw [if_neg hcnd] at hchar
          exact Option.noConfusion hchar

/-- C1: on any output buffer satisfying the length precondition, the default
audio_requested is exactly the spec's algorithm: inputs are processed in
enumeration order; each is pulled recursively into a fresh zero-filled scratch
buffer of frames*channels samples with the same settings and accumulated into
output by output[idx] += scratch[idx] * gain[j] for every frame i and channel
j with idx = i*channels + j, where gain = gain_per_channel() is computed once
before any input is processed; and process_buffer(output, settings) is
invoked exactly once after all inputs are mixed. -/
theorem audio_requested_eq_spec (vol pan : ℚ) (inputs : List Pull)
    (proc : List ℚ → Settings → List ℚ) (output : List ℚ) (s : Settings)
    (h : output.length = s.frames * s.channels) :
    audio_requested vol pan inputs proc output s =
    spec_audio_requested vol pan inputs proc output s := by
  unfold audio_requested spec_audio_requested
  rw [mixInputs_eq_spec s (vol_per_channel vol pan) inputs output h]

/-- Witness for C1 at a concrete input: a node with one input that writes
nothing, stereo settings, and a zeroed two-sample buffer. -/
theorem audio_requested_eq_spec_witness :
    audio_requested 1 0 [fun out _ => some out] default_process_buffer [0, 0] ⟨1, 2⟩ =
    spec_audio_requested 1 0 [fun out _ => some out] default_process_buffer [0, 0] ⟨1, 2⟩ :=
  audio_requested_eq_spec 1 0 [fun out _ => some out] default_process_buffer [0, 0]
    ⟨1, 2⟩ rfl

/-- A successful scratch mix preserves the output buffer length. -/
theorem mixOne_length (frames channels : ℕ) (gain working output out2 : List ℚ)
    (h : mixOne frames channels gain working output = some out2) :
    out2.length = output.length := by
  rw [mixOne_char] at h
  by_cases hc : ∀ p ∈ allPairs frames channels,
      pairOK channels working.length gain.length output.length p
  · rw [if_pos hc] at h
    rw [← Option.some.inj h]
    exact applyPairs_length channels gain working (allPairs frames channels) output
  · rw [if_neg hc] at h
    exact Option.noConfusion h

/-- With at most two channels and buffers covering the interleaved range, one
scratch mix succeeds and performs the accumulation updates. -/
theorem mixOne_some (frames channels : ℕ) (vol pan : ℚ) (working output : List ℚ)
    (hch : channels ≤ 2) (hw : frames * channels ≤ working.length)
    (ho : frames * channels ≤ output.length) :
    mixOne frames channels (vol_per_channel vol pan) working output =
    some (applyPairs channels (vol_per_channel vol pan) working
      (allPairs frames channels) output) := by
  rw [mixOne_char, if_pos]
  intro p hp
  obtain ⟨h1, h2⟩ := mem_allPairs.mp hp
  have hidx : p.1 * channels + p.2 < frames * channels := by
    have he : (p.1 + 1) * channels = p.1 * channels + channels := by ring
    have hle : (p.1 + 1) * channels ≤ frames * channels :=
      Nat.mul_le_mul_right channels (by omega)
    omega
  exact ⟨by omega, by rw [length_vol_per_channel]; omega, by omega⟩

/-- With at most two channels, every input pull succeeding with enough
samples, and the length precondition on output, the whole input-mixing loop
succeeds and preserves the buffer length. -/
theorem mixInputs_some (s : Settings) (vol pan : ℚ) (hch : s.channels ≤ 2) :
    ∀ (inputs : List Pull) (output : List ℚ),
    output.length = s.frames * s.channels →
    (∀ pull ∈ inputs, ∃ w,
      pull (List.replicate (s.frames * s.channels) 0) s = some w ∧
      s.frames * s.channels ≤ w.length) →
    ∃ out2, mixInputs inputs (vol_per_channel vol pan) output s = some out2 ∧
      out2.length = s.frames * s.channels := by
  intro inputs
  induction inputs with
  | nil => intro output hlen _; exact ⟨output, rfl, hlen⟩
  | cons pull rest ih =>
    intro output hlen hall
    obtain ⟨w, hw, hwlen⟩ := hall pull (List.mem_cons_self pull rest)
    unfold mixInputs
    rw [hw]
    dsimp only
    rw [mixOne_some s.frames s.channels vol pan w output hch hwlen (by omega)]
    dsimp only
    exact ih _ (by rw [applyPairs_length]; exact hlen)
      (fun q hq => hall q (List.mem_cons_of_mem pull hq))

/-- Counterexample to C3 as stated: with three channels, one frame, one input
and the buffer-length precondition satisfied (3 = 1*3), the default
audio_requested reads the two-element gain array out of bounds and panics. -/
theorem audio_requested_three_channels_fails :
    audio_requested 1 0 [fun out _ => some out] default_process_buffer
      (List.replicate 3 0) ⟨1, 3⟩ = none := rfl

/-- C3 amended: under the preconditions output.length = frames*channels and
channels ≤ 2, with every input pull succeeding and filling at least
frames*channels samples, the default audio_requested defines no fallible
operation: every buffer access is in bounds and every numeric conversion
succeeds, so the call returns a result. -/
theorem audio_requested_total (vol pan : ℚ) (inputs : List Pull)
    (proc : List ℚ → Settings → List ℚ) (output : List ℚ) (s : Settings)
    (h1 : output.length = s.frames * s.channels) (h2 : s.channels ≤ 2)
    (h3 : ∀ pull ∈ inputs, ∃ w,
      pull (List.replicate (s.frames * s.channels) 0) s = some w ∧
      s.frames * s.channels ≤ w.length) :
    ∃ r, audio_requested vol pan inputs proc output s = some r := by
  obtain ⟨out2, hmix, _⟩ := mixInputs_some s vol pan h2 inputs output h1 h3
  exact ⟨proc out2 s, by unfold audio_requested; rw [hmix]⟩

/-- Witness for the amended C3 at a concrete input. -/
theorem audio_requested_total_witness :
    ∃ r, audio_requested 1 0 [fun out _ => some out] default_process_buffer
      (List.replicate 2 0) ⟨1, 2⟩ = some r :=
  audio_requested_total 1 0 [fun out _ => some out] default_process_buffer
    (List.replicate 2 0) ⟨1, 2⟩ rfl (by decide)
    (by
      intro pull hp
      rw [List.mem_singleton] at hp
      subst hp
      exact ⟨List.replicate 2 0, rfl, by decide⟩)

/-- C9: with more than two channels, at least one frame and at least one
input, the default audio_requested reads the two-element gain array at
channel index 2 (out of bounds) and panics, even when the buffer-length
precondition holds. -/
theorem audio_requested_none_of_channels_gt_two (vol pan : ℚ) (inputs : List Pull)
    (proc : List ℚ → Settings → List ℚ) (output : List ℚ) (s : Settings)
    (hne : inputs ≠ []) (hch : 2 < s.channels) (hfr : 0 < s.frames) :
    audio_requested vol pan inputs proc output s = none := by
  obtain ⟨pull, rest, rfl⟩ := List.exists_cons_of_ne_nil hne
  unfold audio_requested mixInputs
  cases hp : pull (List.replicate (s.frames * s.channels) 0) s with
  | none => rfl
  | some working =>
    dsimp only
    have hcond : ¬ ∀ p ∈ allPairs s.frames s.channels,
        pairOK s.channels working.length (vol_per_channel vol pan).length
          output.length p := by
      intro hall
      have hmem := hall (0, 2) (mem_allPairs.mpr ⟨hfr, hch⟩)
      have hlen2 : (2 : ℕ) < (vol_per_channel vol pan).length := hmem.2.1
      rw [length_vol_per_channel] at hlen2
      omega
    rw [mixOne_char, if_neg hcond]

/-- Witness for C9 at a concrete input: two frames, four channels. -/
theorem audio_requested_none_of_channels_gt_two_witness :
    audio_requested 2 (1/2) [fun out _ => some out] default_process_buffer
      (List.replicate 8 0) ⟨2, 4⟩ = none :=
  audio_requested_none_of_channels_gt_two 2 (1/2) [fun out _ => some out]
    default_process_buffer (List.replicate 8 0) ⟨2, 4⟩
    (List.cons_ne_nil _ _) (by decide) (by decide)

/-- Counterexample to C4 as stated: a node with one input and a no-op
process_buffer, pulled into a buffer that already holds 5, adds the input's
scaled sample to the existing contents; the resulting sample is 6, not the
bare scaled sample 1 * 1. -/
theorem audio_requested_one_input_accumulates :
    audio_requested 1 0 [fun _ _ => some [1]] default_process_buffer [5] ⟨1, 1⟩ =
      some [6] ∧ (6 : ℚ) ≠ 1 * 1 := by
  constructor
  · norm_num [audio_requested, mixInputs, mixOne, mixRow, mixStep, vol_per_channel,
      sample_to_f32, sample_from_f32, default_process_buffer, List.range_succ]
  · norm_num

/-- C4 amended: a node with exactly one input and a no-op process_buffer,
pulled into a zero-filled buffer of frames*channels samples with at most two
channels and an input pull that fills the scratch buffer, reproduces the
input's pulled signal scaled exactly by gain_per_channel, sample for sample:
output[i*channels + j] = pulled[i*channels + j] * gain[j]. -/
theorem audio_requested_one_input_scales (vol pan : ℚ) (pull : Pull) (s : Settings)
    (w : List ℚ) (hch : s.channels ≤ 2)
    (hw : pull (List.replicate (s.frames * s.channels) 0) s = some w)
    (hwlen : s.frames * s.channels ≤ w.length) :
    ∃ r, audio_requested vol pan [pull] default_process_buffer
        (List.replicate (s.frames * s.channels) 0) s = some r ∧
      r.length = s.frames * s.channels ∧
      ∀ i j, i < s.frames → j < s.channels →
        r[i * s.channels + j]? =
          some (w.getD (i * s.channels + j) 0 *
            (vol_per_channel vol pan).getD j 0) := by
  have hap : mixInputs [pull] (vol_per_channel vol pan)
      (List.replicate (s.frames * s.channels) 0) s =
      some (applyPairs s.channels (vol_per_channel vol pan) w
        (allPairs s.frames s.channels)
        (List.replicate (s.frames * s.channels) 0)) := by
    unfold mixInputs
    rw [hw]
    dsimp only
    rw [mixOne_some s.frames s.channels vol pan w _ hch hwlen (by simp)]
    rfl
  refine ⟨applyPairs s.channels (vol_per_channel vol pan) w
      (allPairs s.frames s.channels)
      (List.replicate (s.frames * s.channels) 0), ?_, ?_, ?_⟩
  · unfold audio_requested
    rw [hap]
    rfl
  · rw [applyPairs_length]
    simp
  · intro i j hi hj
    rw [applyPairs_all_getElem?]
    have hidx : i * s.channels + j < s.frames * s.channels := by
      have he : (i + 1) * s.channels = i * s.channels + s.channels := by ring
      have hle : (i + 1) * s.channels ≤ s.frames * s.channels :=
        Nat.mul_le_mul_right s.channels (by omega)
      omega
    rw [if_pos hidx]
    have hrep : (List.replicate (s.frames * s.channels) (0 : ℚ))[i * s.channels + j]? =
        some 0 := List.getElem?_replicate_of_lt hidx
    have hmod : (i * s.channels + j) % s.channels = j := by
      rw [Nat.mul_comm, Nat.mul_add_mod]
      exact Nat.mod_eq_of_lt hj
    rw [hrep, hmod]
    simp

/-- Witness for the amended C4 at a concrete input: an input emitting the two
samples 2 and 3 into one stereo frame, at volume 1 and center pan. -/
theorem audio_requested_one_input_scales_witness :
    ∃ r, audio_requested 1 0 [fun _ _ => some [2, 3]] default_process_buffer
        (List.replicate ((⟨1, 2⟩ : Settings).frames * (⟨1, 2⟩ : Settings).channels) 0)
        ⟨1, 2⟩ = some r ∧
      r.length = (⟨1, 2⟩ : Settings).frames * (⟨1, 2⟩ : Settings).channels ∧
      ∀ i j, i < (⟨1, 2⟩ : Settings).frames → j < (⟨1, 2⟩ : Settings).channels →
        r[i * (⟨1, 2⟩ : Settings).channels + j]? =
          some (([2, 3] : List ℚ).getD (i * (⟨1, 2⟩ : Settings).channels + j) 0 *
            (vol_per_channel 1 0).getD j 0) :=
  audio_requested_one_input_scales 1 0 (fun _ _ => some [2, 3]) ⟨1, 2⟩ [2, 3]
    (by decide) rfl (by decide)

/-- C10: within the pan domain [-1, 1], negating the pan swaps the two
channel gains: the gain pair at pan -p is the reverse of the pair at pan p. -/
theorem vol_per_channel_neg_pan (v p : ℚ) (h1 : -1 ≤ p) (h2 : p ≤ 1) :
    vol_per_channel v (-p) = (vol_per_channel v p).reverse := by
  unfold vol_per_channel
  rcases lt_trichotomy p 0 with hp | hp | hp
  · rw [if_neg (not_le.mpr hp), if_pos (by linarith)]
    have ha : |(-p) - 1| = p + 1 := by
      rw [abs_of_nonpos (by linarith)]
      ring
    rw [ha]
    simp
  · subst hp
    norm_num
  · rw [if_pos (le_of_lt hp), if_neg (not_le.mpr (by linarith : -p < 0))]
    have ha : |p - 1| = -p + 1 := by
      rw [abs_of_nonpos (by linarith)]
      ring
    rw [ha]
    simp

/-- Witness for C10 at volume 3 and pan one half. -/
theorem vol_per_channel_neg_pan_witness :
    vol_per_channel 3 (-(1/2)) = (vol_per_channel 3 (1/2)).reverse :=
  vol_per_channel_neg_pan 3 (1/2) (by norm_num) (by norm_num)

/-- In exact rational arithmetic, mixing two scratch buffers into the same
output commutes. -/
theorem mixOne_comm (frames channels : ℕ) (gain wa wb output : List ℚ) :
    (mixOne frames channels gain wa output).bind (mixOne frames channels gain wb) =
    (mixOne frames channels gain wb output).bind (mixOne frames channels gain wa) := by
  by_cases hA : ∀ p ∈ allPairs frames channels,
      pairOK channels wa.length gain.length output.length p
  · by_cases hB : ∀ p ∈ allPairs frames channels,
        pairOK channels wb.length gain.length output.length p
    · rw [mixOne_char frames channels gain wa output, if_pos hA,
        mixOne_char frames channels gain wb output, if_pos hB]
      simp only [Option.some_bind]
      rw [mixOne_char frames channels gain wb, mixOne_char frames channels gain wa]
      simp only [applyPairs_length]
      rw [if_pos hB, if_pos hA]
      congr 1
      apply List.ext_getElem?
      intro k
      rw [applyPairs_all_getElem?, applyPairs_all_getElem?,
        applyPairs_all_getElem?, applyPairs_all_getElem?]
      by_cases hk : k < frames * channels
      · rw [if_pos hk, if_pos hk, if_pos hk, if_pos hk]
        cases output[k]? with
        | none => rfl
        | some o =>
          simp only [Option.map_some']
          congr 1
          ring
      · rw [if_neg hk, if_neg hk, if_neg hk, if_neg hk]
    · rw [mixOne_char frames channels gain wa output, if_pos hA,
        mixOne_char frames channels gain wb output, if_neg hB]
      simp only [Option.some_bind, Option.none_bind]
      rw [mixOne_char frames channels gain wb]
      simp only [applyPairs_length]
      rw [if_neg hB]
  · by_cases hB : ∀ p ∈ allPairs frames channels,
        pairOK channels wb.length gain.length output.length p
    · rw [mixOne_char frames channels gain wa output, if_neg hA,
        mixOne_char frames channels gain wb output, if_pos hB]
      simp only [Option.some_bind, Option.none_bind]
      rw [mixOne_char frames channels gain wa]
      simp only [applyPairs_length]
      rw [if_neg hA]
    · rw [mixOne_char frames channels gain wa output, if_neg hA,
        mixOne_char frames channels gain wb output, if_neg hB]
      rfl

/-- In exact rational arithmetic the input-mixing loop is invariant under any
permutation of the input list. -/
theorem mixInputs_perm (s : Settings) (gain : List ℚ)
    {inputs1 inputs2 : List Pull} (hperm : inputs1.Perm inputs2) :
    ∀ output : List ℚ,
    mixInputs inputs1 gain output s = mixInputs inputs2 gain output s := by
  induction hperm with
  | nil => intro _; rfl
  | cons p h ih =>
    intro output
    unfold mixInputs
    cases hp : p (List.replicate (s.frames * s.channels) 0) s with
    | none => rfl
    | some w =>
      dsimp only
      cases hm : mixOne s.frames s.channels gain w output with
      | none => rfl
      | some out2 =>
        dsimp only
        exact ih out2
  | swap x y l =>
    intro output
    unfold mixInputs
    cases hy : y (List.replicate (s.frames * s.channels) 0) s with
    | none =>
      cases hx : x (List.replicate (s.frames * s.channels) 0) s with
      | none => rfl
      | some wx =>
        dsimp only
        cases hmx : mixOne s.frames s.channels gain wx output with
        | none => rfl
        | some out2 =>
          dsimp only
          unfold mixInputs
          rw [hy]
    | some wy =>
      cases hx : x (List.replicate (s.frames * s.channels) 0) s with
      | none =>
        dsimp only
        cases hmy : mixOne s.frames s.channels gain wy output with
        | none => rfl
        | some out2 =>
          dsimp only
          unfold mixInputs
          rw [hx]
      | some wx =>
        dsimp only
        have hcomm := mixOne_comm s.frames s.channels gain wy wx output
        cases hmy : mixOne s.frames s.channels gain wy output with
        | none =>
          cases hmx : mixOne s.frames s.channels gain wx output with
          | none => rfl
          | some ox =>
            dsimp only
            rw [hmy, hmx] at hcomm
            simp only [Option.none_bind, Option.some_bind] at hcomm
            unfold mixInputs
            rw [hy]
            dsimp only
            rw [← hcomm]
        | some oy =>
          cases hmx : mixOne s.frames s.channels gain wx output with
          | none =>
            dsimp only
            rw [hmy, hmx] at hcomm
            simp only [Option.none_bind, Option.some_bind] at hcomm
            unfold mixInputs
            rw [hx]
            dsimp only
            rw [hcomm]
          | some ox =>
            dsimp only
            rw [hmy, hmx] at hcomm
            simp only [Option.some_bind] at hcomm
            unfold mixInputs
            rw [hx, hy]
            dsimp only
            rw [hcomm]
  | trans h1 h2 ih1 ih2 =>
    intro output
    rw [ih1 output, ih2 output]

/-- C7: in exact rational arithmetic the buffer produced by the default
audio_requested is invariant under any permutation of the sequence returned
by inputs(). -/
theorem audio_requested_perm (vol pan : ℚ)
    (proc : List ℚ → Settings → List ℚ) (output : List ℚ) (s : Settings)
    {inputs1 inputs2 : List Pull} (hperm : inputs1.Perm inputs2) :
    audio_requested vol pan inputs1 proc output s =
    audio_requested vol pan inputs2 proc output s := by
  unfold audio_requested
  rw [mixInputs_perm s (vol_per_channel vol pan) hperm output]

/-- Witness for C7: swapping two concrete inputs leaves the pulled buffer
unchanged. -/
theorem audio_requested_perm_witness :
    audio_requested 1 0 [fun _ _ => some [1, 1], fun out _ => some out]
      default_process_buffer [0, 0] ⟨1, 2⟩ =
    audio_requested 1 0 [fun out _ => some out, fun _ _ => some [1, 1]]
      default_process_buffer [0, 0] ⟨1, 2⟩ :=
  audio_requested_perm 1 0 default_process_buffer [0, 0] ⟨1, 2⟩
    (List.Perm.swap (fun out _ => some out) (fun _ _ => some [1, 1]) [])

/-- When no child interpretation runs out of fuel, one child-mixing pass is
exactly the input-mixing loop of audio_requested over the children's
behaviours. -/
theorem mixChildren_eq_mixInputs
    (pull : NodeT → List ℚ → Settings → Option (Option (List ℚ)))
    (childres : NodeT → List ℚ → Settings → Option (List ℚ)) (s : Settings) :
    ∀ (inputs : List NodeT) (gain output : List ℚ),
    (∀ n ∈ inputs, ∀ out', pull n out' s = some (childres n out' s)) →
    mixChildren pull inputs gain output s =
    some (mixInputs (inputs.map (fun n out' s' => childres n out' s')) gain output s) := by
  intro inputs
  induction inputs with
  | nil => intro gain output _; rfl
  | cons n rest ih =>
    intro gain output h
    rw [List.map_cons]
    unfold mixChildren mixInputs
    rw [h n (List.mem_cons_self n rest) (List.replicate (s.frames * s.channels) 0)]
    dsimp only
    cases hc : childres n (List.replicate (s.frames * s.channels) 0) s with
    | none => rfl
    | some working =>
      dsimp only
      cases hm : mixOne s.frames s.channels gain working output with
      | none => rfl
      | some out2 =>
        dsimp only
        exact ih gain out2 (fun m hm' out' => h m (List.mem_cons_of_mem n hm') out')

/-- One step of the fueled tree interpretation, when no child runs out of
fuel, is exactly the default audio_requested with the children's
interpretations as input pulls. -/
theorem pullFuel_eq_audio_requested (fuel : ℕ) (vol pan : ℚ) (inputs : List NodeT)
    (proc : List ℚ → Settings → List ℚ) (output : List ℚ) (s : Settings)
    (childres : NodeT → List ℚ → Settings → Option (List ℚ))
    (hch : ∀ n ∈ inputs, ∀ out', pullFuel fuel n out' s = some (childres n out' s)) :
    pullFuel (fuel + 1) (NodeT.mk vol pan inputs proc) output s =
    some (audio_requested vol pan (inputs.map (fun n out' s' => childres n out' s'))
      proc output s) := by
  unfold pullFuel audio_requested
  rw [mixChildren_eq_mixInputs (pullFuel fuel) childres s inputs
    (vol_per_channel vol pan) output hch]
  cases mixInputs (inputs.map (fun n out' s' => childres n out' s'))
      (vol_per_channel vol pan) output s with
  | none => rfl
  | some mixed => rfl

/-- Every node tree has positive size. -/
theorem NodeT_sizeOf_pos (t : NodeT) : 0 < sizeOf t := by
  cases t with
  | mk v p ins proc =>
    simp only [NodeT.mk.sizeOf_spec]
    omega

/-- A child node is smaller than its parent node. -/
theorem NodeT_sizeOf_child (n : NodeT) (vol pan : ℚ) (inputs : List NodeT)
    (proc : List ℚ → Settings → List ℚ) (h : n ∈ inputs) :
    sizeOf n < sizeOf (NodeT.mk vol pan inputs proc) := by
  have h1 := List.sizeOf_lt_of_mem h
  simp only [NodeT.mk.sizeOf_spec]
  omega

/-- A child-mixing pass returns a value as soon as the child interpretation
does on every child. -/
theorem mixChildren_isSome
    (pull : NodeT → List ℚ → Settings → Option (Option (List ℚ))) :
    ∀ (l : List NodeT), (∀ n ∈ l, ∀ out s, ∃ r, pull n out s = some r) →
    ∀ (gain output : List ℚ) (s : Settings),
    ∃ r, mixChildren pull l gain output s = some r := by
  intro l
  induction l with
  | nil => intro _ gain output s; exact ⟨some output, rfl⟩
  | cons n rest ih =>
    intro h gain output s
    obtain ⟨r, hr⟩ :=
      h n (List.mem_cons_self n rest) (List.replicate (s.frames * s.channels) 0) s
    unfold mixChildren
    rw [hr]
    cases r with
    | none => exact ⟨none, rfl⟩
    | some working =>
      dsimp only
      cases hm : mixOne s.frames s.channels gain working output with
      | none => exact ⟨none, rfl⟩
      | some out2 =>
        dsimp only
        exact ih (fun m hm' out' s' => h m (List.mem_cons_of_mem n hm') out' s') gain out2 s

/-- With fuel at least the size of the tree, the fueled interpretation of the
default audio_requested returns a result: it never hits the fuel cutoff. -/
theorem pullFuel_isSome :
    ∀ (fuel : ℕ) (t : NodeT), sizeOf t ≤ fuel →
    ∀ (output : List ℚ) (s : Settings), ∃ r, pullFuel fuel t output s = some r := by
  intro fuel
  induction fuel with
  | zero =>
    intro t ht
    exact absurd ht (by have := NodeT_sizeOf_pos t; omega)
  | succ fuel ih =>
    intro t ht output s
    cases t with
    | mk vol pan inputs proc =>
      have hchild : ∀ n ∈ inputs, ∀ out' s', ∃ r, pullFuel fuel n out' s' = some r := by
        intro n hn out' s'
        apply ih
        have h1 := NodeT_sizeOf_child n vol pan inputs proc hn
        have h2 : sizeOf (NodeT.mk vol pan inputs proc) ≤ fuel + 1 := ht
        omega
      obtain ⟨r, hr⟩ := mixChildren_isSome (pullFuel fuel) inputs hchild
        (vol_per_channel vol pan) output s
      unfold pullFuel
      rw [hr]
      cases r with
      | none => exact ⟨none, rfl⟩
      | some mixed => exact ⟨some (proc mixed s), rfl⟩

/-- C6: one invocation of the default audio_requested on the root of any
finite acyclic tree of nodes terminates, whatever its depth and branching:
with fuel equal to the tree size, the fueled interpretation pullFuel never
reaches the fuel cutoff and returns a result. -/
theorem audio_requested_terminates (t : NodeT) (output : List ℚ) (s : Settings) :
    ∃ r, pullFuel (sizeOf t) t output s = some r :=
  pullFuel_isSome (sizeOf t) t le_rfl output s
